import Mathlib

/-!
Verification development for the `tch-rs` fragment consisting of
`src/vision/image.rs` (image I/O helpers over native calls) and
`examples/reinforcement-learning/a2c.rs` (an A2C training loop).

The Rust code is shallowly embedded: native library calls (`at_load_image`,
`at_save_image`, `at_resize_image`, `Tensor::permute`, plus the helper
`path_to_str` and `CString::new`) are parameters of the embedding, gathered
in a `Native` record, since their behaviour lives outside this repository.
Fallible Rust functions returning `Result<_, TorchError>` become
`Except TorchError _`.
-/

namespace Image

/-- Opaque model of a filesystem path (`&std::path::Path`). -/
structure Path where
  repr : String
deriving DecidableEq

/-- Opaque model of a C string (`std::ffi::CString`). -/
structure CString where
  repr : String
deriving DecidableEq

/-- Opaque model of the raw native tensor pointer (`c_tensor`). -/
structure CTensor where
  id : Nat
deriving DecidableEq

/-- Model of `TorchError`. -/
structure TorchError where
  msg : String
deriving DecidableEq

/-- The Rust `Tensor` struct of this layer: it wraps exactly the raw
native pointer and nothing else (`Tensor { c_tensor }`). -/
structure Tensor where
  c_tensor : CTensor
deriving DecidableEq

/-- The native functions and helpers used by `src/vision/image.rs`,
as oracles: their behaviour is external to this repository.
`dims` is an observation of a native tensor's dimension sizes; it is a
field of the record so that we can state that this layer never reads it. -/
structure Native where
  pathToStr : Path → Except TorchError String
  cstringNew : String → Except TorchError CString
  at_load_image : CString → Except TorchError CTensor
  at_save_image : CTensor → CString → Except TorchError Int
  at_resize_image : CTensor → Int → Int → CTensor
  permuteC : CTensor → List Int → CTensor
  dims : CTensor → List Int

variable (N : Native)

/-- `Tensor::permute` as used by this layer: a native call on the raw
pointer, producing a new wrapped tensor. -/
def Tensor.permute (t : Tensor) (ds : List Int) : Tensor :=
  { c_tensor := N.permuteC t.c_tensor ds }

/-- `fn load_hwc(path) -> Result<Tensor, TorchError>`:
`CString::new(path_to_str(path)?)?`, then `at_load_image`, then wrap. -/
def load_hwc (path : Path) : Except TorchError Tensor := do
  let s ← N.pathToStr path
  let cpath ← N.cstringNew s
  let c_tensor ← N.at_load_image cpath
  pure { c_tensor }

/-- `fn save_hwc(t, path) -> Result<(), TorchError>`: path conversion,
then `at_save_image` (its integer result is discarded by `let _ =`). -/
def save_hwc (t : Tensor) (path : Path) : Except TorchError Unit := do
  let s ← N.pathToStr path
  let cpath ← N.cstringNew s
  let _ ← N.at_save_image t.c_tensor cpath
  pure ()

/-- `fn resize_hwc(t, out_w, out_h) -> Tensor`: a plain native call,
no `Result` in its type. -/
def resize_hwc (t : Tensor) (out_w out_h : Int) : Tensor :=
  { c_tensor := N.at_resize_image t.c_tensor out_w out_h }

/-- `fn hwc_to_chw(tensor) -> Tensor { tensor.permute(&[2, 0, 1]) }` -/
def hwc_to_chw (t : Tensor) : Tensor :=
  Tensor.permute N t [2, 0, 1]

/-- `fn chw_to_hwc(tensor) -> Tensor { tensor.permute(&[1, 2, 0]) }` -/
def chw_to_hwc (t : Tensor) : Tensor :=
  Tensor.permute N t [1, 2, 0]

/-- `pub fn load(path)`: `load_hwc` then `hwc_to_chw`. -/
def load (path : Path) : Except TorchError Tensor := do
  let tensor ← load_hwc N path
  pure (hwc_to_chw N tensor)

/-- `pub fn save(t, path)`: `save_hwc(&chw_to_hwc(t), path)`. -/
def save (t : Tensor) (path : Path) : Except TorchError Unit :=
  save_hwc N (chw_to_hwc N t) path

/-- `pub fn resize(t, out_w, out_h)`:
`hwc_to_chw(&resize_hwc(&chw_to_hwc(t), out_w, out_h))`. -/
def resize (t : Tensor) (out_w out_h : Int) : Tensor :=
  hwc_to_chw N (resize_hwc N (chw_to_hwc N t) out_w out_h)

end Image

namespace A2C

/-! Embedding of `examples/reinforcement-learning/a2c.rs`.

The `data` tensor of a `FrameStack` has shape `[nprocs, nstack, 84, 84]`;
`update` only ever slices it along dimension 1 (`self.data.narrow(1, i, 1)`)
and copies whole slices, so we model it as an `Array` of `nstack` slice
values of an abstract slice type `α` (one `[nprocs, 1, 84, 84]` block per
stack position).  Out-of-bounds accesses never occur in the verified runs;
we use `Array.getD` / `Array.setD` so the model stays total. -/

/-- The `FrameStack` struct: `data` (modelled along its stack dimension),
`nprocs` and `nstack` (both `i64` in the source). -/
structure FrameStack (α : Type) where
  data : Array α
  nprocs : Int
  nstack : Int

/-- `FrameStack::new(nprocs, nstack)`:
`data = Tensor::zeros(&[nprocs, nstack, 84, 84], FLOAT_CPU)`, i.e. `nstack`
zero slices (`z` is the zero slice value). -/
def FrameStack.new {α : Type} (z : α) (nprocs nstack : Int) : FrameStack α :=
  { data := Array.mkArray nstack.toNat z, nprocs := nprocs, nstack := nstack }

/-- The body of `for i in 1..self.nstack { slice(i - 1).copy_(&slice(i)) }`,
run sequentially for `fuel` iterations starting at loop index `i`. -/
def shiftGo {α : Type} (z : α) (d : Array α) (i : Nat) : Nat → Array α
  | 0 => d
  | fuel + 1 => shiftGo z (d.setD (i - 1) (d.getD i z)) (i + 1) fuel

/-- `FrameStack::update(&mut self, img)`: shift every slice down by one
(`slice(i-1).copy_(&slice(i))` for `i = 1 .. nstack-1`), then
`slice(self.nstack - 1).copy_(img)`.  The Rust function returns `&self.data`;
we return the updated struct together with the returned tensor. -/
def FrameStack.updateRet {α : Type} (z : α) (fs : FrameStack α) (img : α) :
    FrameStack α × Array α :=
  let d := shiftGo z fs.data 1 (fs.nstack - 1).toNat
  let d := d.setD ((fs.nstack - 1).toNat) img
  let fs := { fs with data := d }
  (fs, fs.data)

/-- `update` without the returned reference. -/
def FrameStack.update {α : Type} (z : α) (fs : FrameStack α) (img : α) :
    FrameStack α :=
  (FrameStack.updateRet z fs img).1

/-- One row of the `[NSTEPS+1, NPROCS]` returns tensor `r`: a vector of
per-process scalar values.  The `f64` arithmetic of the loop is modelled
over `ℚ` (the loop structure under verification does not depend on
rounding). -/
abbrev Row (n : Nat) := Fin n → ℚ

/-- The all-zeros row (`Tensor::zeros`). -/
def zrow {n : Nat} : Row n := fun _ => 0

/-- The row computed by one iteration of the backward loop:
`s_rewards.get(s) + r.get(s + 1) * s_masks.get(s) * 0.99`. -/
def retStep {n : Nat} (rewards masks : Nat → Row n) (r : Array (Row n))
    (s : Nat) : Row n :=
  fun p => rewards s p + (r.getD (s + 1) zrow) p * masks s p * (99 / 100)

/-- `for s in (0..NSTEPS - 1).rev() { r.get(s).copy_(&r_s); }`, run for
`k` iterations: indices `k-1, k-2, …, 0`, in that (descending) order. -/
def retGo {n : Nat} (rewards masks : Nat → Row n) :
    Nat → Array (Row n) → Array (Row n)
  | 0, r => r
  | k + 1, r => retGo rewards masks k (r.setD k (retStep rewards masks r k))

/-- The whole `s_returns` block of `run`: start from
`Tensor::zeros(&[NSTEPS + 1, NPROCS])`, write the critic bootstrap into the
last row (`r.get(-1).copy_(&critic.view(..))`), then run the backward loop
over `s ∈ (0..NSTEPS-1).rev()`, i.e. `NSTEPS - 1` iterations. -/
def sReturns {n : Nat} (nsteps : Nat) (rewards masks : Nat → Row n)
    (critic : Row n) : Array (Row n) :=
  retGo rewards masks (nsteps - 1)
    ((Array.mkArray (nsteps + 1) zrow).setD nsteps critic)

end A2C

namespace Image

/-- The spec's description of `load`: the native image-decoding call (with
its path marshaling) composed only with the `[2, 0, 1]` dimension
permutation. -/
def loadSpec (N : Native) (p : Path) : Except TorchError Tensor :=
  Except.map
    (fun t : Tensor => { c_tensor := N.permuteC t.c_tensor [2, 0, 1] })
    (do
      let s ← N.pathToStr p
      let c ← N.cstringNew s
      let ct ← N.at_load_image c
      pure { c_tensor := ct })

/-- The spec's description of `save`: the `[1, 2, 0]` dimension permutation
followed by the native image-encoding call (with its path marshaling). -/
def saveSpec (N : Native) (t : Tensor) (p : Path) : Except TorchError Unit := do
  let s ← N.pathToStr p
  let c ← N.cstringNew s
  let _ ← N.at_save_image (N.permuteC t.c_tensor [1, 2, 0]) c
  pure ()

/-- The spec's description of `resize`: the native resampling call
sandwiched between the `[1, 2, 0]` and `[2, 0, 1]` dimension permutations. -/
def resizeSpec (N : Native) (t : Tensor) (out_w out_h : Int) : Tensor :=
  { c_tensor := N.permuteC
      (N.at_resize_image (N.permuteC t.c_tensor [1, 2, 0]) out_w out_h)
      [2, 0, 1] }

/-- A 3-dimensional tensor with explicit dimension sizes and contents, used
to give the native `permute` call its standard semantics on the two
permutations this layer uses. -/
structure T3 (α : Type) where
  d0 : Nat
  d1 : Nat
  d2 : Nat
  val : Fin d0 → Fin d1 → Fin d2 → α

/-- Semantics of `tensor.permute(&[2, 0, 1])` (the body of `hwc_to_chw`) on
a 3-dimensional tensor: output dimension `i` is input dimension `perm[i]`,
and entry `(a, b, c)` of the output is entry `(b, c, a)` of the input. -/
def permute201 {α : Type} (t : T3 α) : T3 α :=
  { d0 := t.d2, d1 := t.d0, d2 := t.d1, val := fun a b c => t.val b c a }

/-- Semantics of `tensor.permute(&[1, 2, 0])` (the body of `chw_to_hwc`) on
a 3-dimensional tensor: output dimension `i` is input dimension `perm[i]`,
and entry `(a, b, c)` of the output is entry `(c, a, b)` of the input. -/
def permute120 {α : Type} (t : T3 α) : T3 α :=
  { d0 := t.d1, d1 := t.d2, d2 := t.d0, val := fun a b c => t.val c a b }

end Image

namespace A2C

/-- Tensor values appearing in the inner step loop of `run`.  `scalar`
models `Tensor::from(x)` (a 0-dim constant, broadcast by `copy_`), `fvec`
models `Tensor::float_vec(&xs)`, and `sym` stands for values coming out of
the model or the environment that the loop stores without computing on.
`f64` constants are carried as `ℚ` (all constants involved are exact). -/
inductive TVal where
  | scalar (x : ℚ)
  | fvec (xs : List ℚ)
  | sym (id : Nat)
deriving DecidableEq

/-- Elementwise tensor subtraction as used by `Tensor::from(1.) - is_done`;
only the scalar/scalar case is exercised by the embedded code (the fallback
keeps the function total). -/
def TVal.sub : TVal → TVal → TVal
  | TVal.scalar a, TVal.scalar b => TVal.scalar (a - b)
  | a, _ => a

/-- The state mutated by the inner `for s in 0..NSTEPS` loop of `run`:
the five staging tensors, modelled row-wise along dimension 0, plus the
list of arguments passed to `env.step`, in call order. -/
structure LoopState where
  s_states : Array TVal
  s_values : Array TVal
  s_rewards : Array TVal
  s_actions : Array (List Int)
  s_masks : Array TVal
  envCalls : List Int
deriving DecidableEq

/-- One iteration of the inner step loop at step index `s`.
`sample s` is the vector of actions drawn by `probs.multinomial(1, true)`
(one per environment); `criticOf s` is the critic head's output row.
Mirrors lines 80–93 of `a2c.rs`:
`env.step(Vec::<i64>::from(&actions)[0])`, `obs = Tensor::from(42.0)`,
`is_done = Tensor::from(42.0)`, `masks = Tensor::from(1.) - is_done`,
then the five `copy_` writes. -/
def stepIter (sample : Nat → List Int) (criticOf : Nat → TVal)
    (st : LoopState) (s : Nat) : LoopState :=
  let actions := sample s
  let envArg := actions.getD 0 0
  let obs := TVal.scalar 42
  let is_done := TVal.scalar 42
  let masks := TVal.sub (TVal.scalar 1) is_done
  { s_states := st.s_states.setD (s + 1) obs
    s_values := st.s_values.setD s (criticOf s)
    s_rewards := st.s_rewards.setD s (TVal.fvec [0])
    s_actions := st.s_actions.setD s actions
    s_masks := st.s_masks.setD s masks
    envCalls := st.envCalls ++ [envArg] }

/-- The inner step loop run for step indices `0, 1, …, k-1` in order. -/
def innerLoop (sample : Nat → List Int) (criticOf : Nat → TVal)
    (st : LoopState) : Nat → LoopState
  | 0 => st
  | k + 1 => stepIter sample criticOf (innerLoop sample criticOf st k) k

/-- A concrete initial loop state for exercising `claim_C2_stub_step`
(`NSTEPS = 5` rows, as in the example). -/
def c2WitnessState : LoopState :=
  { s_states := Array.mkArray 6 (TVal.scalar 0)
    s_values := Array.mkArray 5 (TVal.scalar 0)
    s_rewards := Array.mkArray 5 (TVal.scalar 0)
    s_actions := Array.mkArray 5 ([] : List Int)
    s_masks := Array.mkArray 5 (TVal.scalar 0)
    envCalls := [] }

end A2C

namespace Own

/-- A native-resource event: the native library hands out a tensor pointer
(`alloc`), or an owner's destructor releases it (`free`). -/
inductive Event where
  | alloc (p : Nat)
  | free (p : Nat)
deriving DecidableEq

/-- Number of occurrences of event `e` in a trace. -/
def countE (tr : List Event) (e : Event) : Nat :=
  (tr.filter (fun x => decide (x = e))).length

/-- Number of occurrences of pointer `p` in a pointer list. -/
def countN (l : List Nat) (p : Nat) : Nat :=
  (l.filter (fun x => decide (x = p))).length

/-- Modelled from the spec: the `Tensor` struct's ownership discipline and
destructor are not part of the two source files under review (only the
construction sites `load_hwc` / `resize_hwc` are); the spec says a tensor
handle "wraps a native opaque pointer; ownership is a single exclusive
owner that releases the native resource on destruction".  `next` is the
next fresh pointer the native allocator will return; `live` lists the
pointers currently wrapped, each by its single owning `Tensor` value. -/
structure OwnState where
  next : Nat
  live : List Nat

/-- The initial state: no tensors constructed yet. -/
def OwnState.init : OwnState := { next := 0, live := [] }

/-- Modelled from the spec: constructing a tensor (as `load_hwc` and
`resize_hwc` do, wrapping the `c_tensor` returned by the native call in
`Tensor { c_tensor }`) makes the new `Tensor` value the single owner of a
fresh native pointer. -/
def construct (st : OwnState) : OwnState :=
  { next := st.next + 1, live := st.next :: st.live }

/-- `k` successive tensor constructions. -/
def constructN : Nat → OwnState → OwnState
  | 0, st => st
  | k + 1, st => constructN k (construct st)

/-- The allocation events emitted by `k` successive constructions. -/
def allocTrace : Nat → OwnState → List Event
  | 0, _ => []
  | k + 1, st => Event.alloc st.next :: allocTrace k (construct st)

/-- Modelled from the spec: when the owners go out of scope, the language
runs each owner's destructor exactly once, and the destructor releases the
owned native resource. -/
def destroyAll (st : OwnState) : List Event := st.live.map Event.free

/-- The complete resource trace of a program that constructs `k` tensors
and then destroys every owner. -/
def fullTrace (k : Nat) : List Event :=
  allocTrace k OwnState.init ++ destroyAll (constructN k OwnState.init)

end Own

namespace A2C

/-- `(a.setD i v).getD i z = v` when `i` is in bounds. -/
theorem getD_setD_self {α : Type} (a : Array α) (i : Nat) (v z : α)
    (h : i < a.size) : (a.setD i v).getD i z = v := by
  simp [Array.getD_eq_get?, Array.getElem?_setD_eq a h v]

/-- `setD` at one index does not change `getD` at another. -/
theorem getD_setD_ne {α : Type} (a : Array α) {i j : Nat} (v z : α)
    (h : i ≠ j) : (a.setD i v).getD j z = a.getD j z := by
  unfold Array.setD
  split
  · rename_i hlt
    rw [Array.getD_eq_get?, Array.getD_eq_get?,
      Array.getElem?_set_ne a ⟨i, hlt⟩ v h]
  · rfl

/-- `getD` on `mkArray` returns the fill value in bounds. -/
theorem getD_mkArray {α : Type} (n i : Nat) (v z : α) (h : i < n) :
    (Array.mkArray n v).getD i z = v := by
  simp [Array.getD_eq_get?, Array.getElem?_mkArray, h]

theorem size_shiftGo {α : Type} (z : α) :
    ∀ (fuel : Nat) (d : Array α) (i : Nat),
      (shiftGo z d i fuel).size = d.size := by
  intro fuel
  induction fuel with
  | zero => intro d i; rfl
  | succ fuel ih =>
      intro d i
      simpa [shiftGo] using ih (d.setD (i - 1) (d.getD i z)) (i + 1)

/-- Elementwise description of the shift loop: after running iterations
`i, i+1, …, i+fuel-1` (each doing `d[j-1] := d[j]`), positions
`i-1 … i-1+fuel-1` hold the old next element, and all others are
untouched. -/
theorem getD_shiftGo {α : Type} (z : α) :
    ∀ (fuel : Nat) (d : Array α) (i : Nat), 1 ≤ i → i + fuel ≤ d.size →
      ∀ j : Nat, (shiftGo z d i fuel).getD j z =
        if i - 1 ≤ j ∧ j < i - 1 + fuel then d.getD (j + 1) z
        else d.getD j z := by
  intro fuel
  induction fuel with
  | zero =>
      intro d i _ _ j
      simp only [shiftGo]
      rw [if_neg (by omega : ¬ (i - 1 ≤ j ∧ j < i - 1 + 0))]
  | succ fuel ih =>
      intro d i hi hsize j
      have hkey : i - 1 < d.size := by omega
      have hrec := ih (d.setD (i - 1) (d.getD i z)) (i + 1)
        (by omega) (by simpa using (by omega : i + 1 + fuel ≤ d.size)) j
      simp only [shiftGo]
      rw [hrec]
      by_cases hj1 : i ≤ j ∧ j < i + fuel
      · have hcond : i - 1 ≤ j ∧ j < i - 1 + (fuel + 1) := by omega
        simp only [if_pos (by omega : i + 1 - 1 ≤ j ∧ j < i + 1 - 1 + fuel),
          if_pos hcond]
        exact getD_setD_ne d _ _ (by omega)
      · simp only [if_neg (by omega :
          ¬ (i + 1 - 1 ≤ j ∧ j < i + 1 - 1 + fuel))]
        by_cases hj2 : j = i - 1
        · subst hj2
          rw [getD_setD_self d _ _ _ hkey,
            if_pos ⟨Nat.le_refl _, by omega⟩]
          congr 1
          omega
        · rw [getD_setD_ne d _ _ (fun h => hj2 h.symm),
            if_neg (by omega : ¬ (i - 1 ≤ j ∧ j < i - 1 + (fuel + 1)))]

theorem update_nprocs {α : Type} (z : α) (fs : FrameStack α) (img : α) :
    (fs.update z img).nprocs = fs.nprocs := rfl

theorem update_nstack {α : Type} (z : α) (fs : FrameStack α) (img : α) :
    (fs.update z img).nstack = fs.nstack := rfl

theorem update_size {α : Type} (z : α) (fs : FrameStack α) (img : α) :
    (fs.update z img).data.size = fs.data.size := by
  simp [FrameStack.update, FrameStack.updateRet, size_shiftGo]

/-- Any sequence of `update` calls leaves all three components of the
frame-stack state (`nprocs`, `nstack`, stack-dimension length) unchanged. -/
theorem foldl_update_invariant {α : Type} (z : α) :
    ∀ (imgs : List α) (fs : FrameStack α),
      (imgs.foldl (FrameStack.update z) fs).nprocs = fs.nprocs ∧
      (imgs.foldl (FrameStack.update z) fs).nstack = fs.nstack ∧
      (imgs.foldl (FrameStack.update z) fs).data.size = fs.data.size := by
  intro imgs
  induction imgs with
  | nil => intro fs; exact ⟨rfl, rfl, rfl⟩
  | cons img imgs ih =>
      intro fs
      have h := ih (fs.update z img)
      simpa [List.foldl, update_nprocs, update_nstack, update_size]
        using h

/-- C5: for every `FrameStack` with `nstack ≥ 1` (and a well-formed data
tensor of `nstack` stack slices), after `update(img)` the frame at stack
index `i` equals the frame that was at index `i+1` before the call for every
`0 ≤ i < nstack-1`, the frame at index `nstack-1` equals `img`, and the
returned reference is the struct's own `data` tensor. -/
theorem claim_C5_update_shifts {α : Type} (z : α) (fs : FrameStack α)
    (img : α) (h1 : 1 ≤ fs.nstack) (h2 : fs.data.size = fs.nstack.toNat) :
    (∀ i : Nat, i + 1 < fs.nstack.toNat →
      (fs.updateRet z img).1.data.getD i z = fs.data.getD (i + 1) z) ∧
    (fs.updateRet z img).1.data.getD (fs.nstack.toNat - 1) z = img ∧
    (fs.updateRet z img).2 = (fs.updateRet z img).1.data := by
  have hm : 1 ≤ fs.nstack.toNat := by omega
  have hk : (fs.nstack - 1).toNat = fs.nstack.toNat - 1 := by omega
  refine ⟨?_, ?_, rfl⟩
  · intro i hi
    simp only [FrameStack.updateRet]
    rw [hk, getD_setD_ne _ _ _ (by omega),
      getD_shiftGo z (fs.nstack.toNat - 1) fs.data 1 (by omega) (by omega) i,
      if_pos ⟨by omega, by omega⟩]
  · simp only [FrameStack.updateRet]
    rw [hk]
    exact getD_setD_self _ _ _ _ (by rw [size_shiftGo]; omega)

theorem claim_C5_update_shifts_witness :
    (1 : Int) ≤ (⟨#[10, 20, 30, 40], 16, 4⟩ : FrameStack Nat).nstack ∧
    (⟨#[10, 20, 30, 40], 16, 4⟩ : FrameStack Nat).data.size =
      (⟨#[10, 20, 30, 40], 16, 4⟩ : FrameStack Nat).nstack.toNat ∧
    (FrameStack.updateRet (0 : Nat) ⟨#[10, 20, 30, 40], 16, 4⟩ 99).1.data.getD
        1 0 = 30 ∧
    (FrameStack.updateRet (0 : Nat) ⟨#[10, 20, 30, 40], 16, 4⟩ 99).1.data.getD
        3 0 = 99 := by
  have h := claim_C5_update_shifts (α := Nat) 0 ⟨#[10, 20, 30, 40], 16, 4⟩ 99
    (by decide) (by decide)
  refine ⟨by decide, by decide, ?_, ?_⟩
  · rw [h.1 1 (by decide)]; decide
  · have h2 := h.2.1
    rw [show ((⟨#[10, 20, 30, 40], 16, 4⟩ :
      FrameStack Nat).nstack.toNat - 1) = 3 from rfl] at h2
    exact h2

/-- C9: `FrameStack::update` leaves the `nprocs` and `nstack` fields
unchanged and preserves the stack-dimension length of `data` established by
`FrameStack::new` (the `[nprocs, nstack, 84, 84]` shape is an invariant of
every sequence of `update` calls). -/
theorem claim_C9_shape_invariant {α : Type} (z : α) :
    (∀ (fs : FrameStack α) (img : α),
      (fs.update z img).nprocs = fs.nprocs ∧
      (fs.update z img).nstack = fs.nstack ∧
      (fs.update z img).data.size = fs.data.size) ∧
    (∀ (nprocs nstack : Int) (imgs : List α),
      (imgs.foldl (FrameStack.update z)
          (FrameStack.new z nprocs nstack)).nprocs = nprocs ∧
      (imgs.foldl (FrameStack.update z)
          (FrameStack.new z nprocs nstack)).nstack = nstack ∧
      (imgs.foldl (FrameStack.update z)
          (FrameStack.new z nprocs nstack)).data.size = nstack.toNat) := by
  refine ⟨fun fs img => ⟨update_nprocs z fs img, update_nstack z fs img,
    update_size z fs img⟩, fun nprocs nstack imgs => ?_⟩
  have h := foldl_update_invariant z imgs (FrameStack.new z nprocs nstack)
  simpa [FrameStack.new] using h

theorem size_retGo {n : Nat} (rewards masks : Nat → Row n) :
    ∀ (k : Nat) (r : Array (Row n)), (retGo rewards masks k r).size = r.size := by
  intro k
  induction k with
  | zero => intro r; rfl
  | succ k ih =>
      intro r
      simpa [retGo] using ih (r.setD k (retStep rewards masks r k))

/-- Rows at positions `≥ k` are never written by the backward loop. -/
theorem retGo_ge {n : Nat} (rewards masks : Nat → Row n) :
    ∀ (k : Nat) (r : Array (Row n)) (j : Nat), k ≤ j →
      (retGo rewards masks k r).getD j zrow = r.getD j zrow := by
  intro k
  induction k with
  | zero => intro r j _; rfl
  | succ k ih =>
      intro r j hj
      simp only [retGo]
      rw [ih _ j (by omega), getD_setD_ne _ _ _ (by omega)]

/-- Rows at positions `< k` satisfy the recursion
`r[s] = rewards[s] + r[s+1] * masks[s] * 0.99` after the backward loop. -/
theorem retGo_lt {n : Nat} (rewards masks : Nat → Row n) :
    ∀ (k : Nat) (r : Array (Row n)), k ≤ r.size → ∀ j, j < k → ∀ p,
      (retGo rewards masks k r).getD j zrow p =
        rewards j p +
          (retGo rewards masks k r).getD (j + 1) zrow p * masks j p *
            (99 / 100) := by
  intro k
  induction k with
  | zero => intro r _ j hj; omega
  | succ k ih =>
      intro r hsize j hj p
      simp only [retGo]
      by_cases hjk : j = k
      · subst hjk
        rw [retGo_ge rewards masks j _ j (Nat.le_refl j),
          getD_setD_self _ _ _ _ (by omega),
          retGo_ge rewards masks j _ (j + 1) (by omega),
          getD_setD_ne _ _ _ (by omega)]
        rfl
      · exact ih (r.setD k (retStep rewards masks r k)) (by simpa using
          (by omega : k ≤ r.size)) j (by omega) p

/-- Rows at positions `≤ k` after the backward loop depend only on the
initial rows at positions `≤ k`. -/
theorem retGo_ext {n : Nat} (rewards masks : Nat → Row n) :
    ∀ (k : Nat) (r r' : Array (Row n)), r.size = r'.size →
      (∀ j, j ≤ k → r.getD j zrow = r'.getD j zrow) →
      ∀ j, j ≤ k →
        (retGo rewards masks k r).getD j zrow =
          (retGo rewards masks k r').getD j zrow := by
  intro k
  induction k with
  | zero =>
      intro r r' _ hagree j hj
      simpa [retGo] using hagree j hj
  | succ k ih =>
      intro r r' hsize hagree j hj
      have hstep : retStep rewards masks r k = retStep rewards masks r' k := by
        funext p
        simp only [retStep]
        rw [hagree (k + 1) (Nat.le_refl _)]
      have hsize' : (r.setD k (retStep rewards masks r k)).size =
          (r'.setD k (retStep rewards masks r' k)).size := by
        simpa using hsize
      have hagree' : ∀ j, j ≤ k →
          (r.setD k (retStep rewards masks r k)).getD j zrow =
            (r'.setD k (retStep rewards masks r' k)).getD j zrow := by
        intro j hj'
        by_cases hjk : j = k
        · subst hjk
          by_cases hin : j < r.size
          · rw [getD_setD_self _ _ _ _ hin,
              getD_setD_self _ _ _ _ (by omega), hstep]
          · unfold Array.setD
            rw [dif_neg hin, dif_neg (by omega), hagree j (by omega)]
        · rw [getD_setD_ne _ _ _ (fun h => hjk h.symm),
            getD_setD_ne _ _ _ (fun h => hjk h.symm), hagree j (by omega)]
      simp only [retGo]
      rcases Nat.lt_or_ge j (k + 1) with hlt | hge
      · exact ih _ _ hsize' hagree' j (by omega)
      · have hjq : j = k + 1 := by omega
        subst hjq
        rw [retGo_ge rewards masks k _ _ (by omega),
          retGo_ge rewards masks k _ _ (by omega),
          getD_setD_ne _ _ _ (by omega), getD_setD_ne _ _ _ (by omega)]
        exact hagree _ (Nat.le_refl _)

/-- C8 (amended): the backward recursion of the `s_returns` block iterates
`s` from `NSTEPS-2` down to `0`, so row `NSTEPS-1` of the returns tensor is
never written and remains the zero vector, while row `NSTEPS` holds the
critic bootstrap value; rows `0 … NSTEPS-2` satisfy
`r[s] = rewards[s] + 0.99 * masks[s] * r[s+1]`; and the bootstrap value does
not propagate into rows `0 … NSTEPS-2`: their dependence chain passes
through the skipped zero row `NSTEPS-1`, so they are independent of the
bootstrap value. -/
theorem claim_C8_returns {n : Nat} (nsteps : Nat) (h1 : 1 ≤ nsteps)
    (rewards masks : Nat → Row n) (critic : Row n) :
    (sReturns nsteps rewards masks critic).getD (nsteps - 1) zrow = zrow ∧
    (sReturns nsteps rewards masks critic).getD nsteps zrow = critic ∧
    (∀ s, s + 1 < nsteps → ∀ p,
      (sReturns nsteps rewards masks critic).getD s zrow p =
        rewards s p +
          (sReturns nsteps rewards masks critic).getD (s + 1) zrow p *
            masks s p * (99 / 100)) ∧
    (∀ (critic' : Row n) (s : Nat), s + 1 < nsteps →
      (sReturns nsteps rewards masks critic).getD s zrow =
        (sReturns nsteps rewards masks critic').getD s zrow) := by
  refine ⟨?_, ?_, ?_, ?_⟩
  · rw [sReturns, retGo_ge rewards masks _ _ _ (Nat.le_refl _),
      getD_setD_ne _ _ _ (by omega), getD_mkArray _ _ _ _ (by omega)]
  · rw [sReturns, retGo_ge rewards masks _ _ _ (by omega)]
    exact getD_setD_self _ _ _ _ (by simp)
  · intro s hs p
    exact retGo_lt rewards masks (nsteps - 1) _ (by simp; omega) s
      (by omega) p
  · intro critic' s hs
    refine retGo_ext rewards masks (nsteps - 1) _ _ (by simp) ?_ s (by omega)
    intro j hj
    rw [getD_setD_ne _ _ _ (by omega), getD_setD_ne _ _ _ (by omega)]

theorem claim_C8_returns_witness :
    1 ≤ 5 ∧
    (sReturns (n := 16) 5 (fun _ _ => 1) (fun _ _ => 1)
        (fun _ => 7)).getD 4 zrow = zrow := by
  exact ⟨by omega, (claim_C8_returns (n := 16) 5 (by omega)
    (fun _ _ => 1) (fun _ _ => 1) (fun _ => 7)).1⟩

/-- C8 is refuted as literally stated: with `NSTEPS = 5`, `NPROCS = 16`,
rewards and masks identically `1`, the critic bootstrap value (`42` vs `0`)
makes no difference to row `NSTEPS-2 = 3` (nor any lower row): the bootstrap
does not propagate into rows `0 … NSTEPS-2`, because the dependence chain
passes through the never-written zero row `NSTEPS-1`. -/
theorem claim_C8_counterexample :
    (sReturns (n := 16) 5 (fun _ _ => 1) (fun _ _ => 1)
        (fun _ => 42)).getD 3 zrow =
      (sReturns (n := 16) 5 (fun _ _ => 1) (fun _ _ => 1)
        (fun _ => 0)).getD 3 zrow ∧
    (fun _ : Fin 16 => (42 : ℚ)) ≠ (fun _ : Fin 16 => (0 : ℚ)) := by
  constructor
  · refine retGo_ext (n := 16) (fun _ _ => 1) (fun _ _ => 1) 4 _ _ (by simp)
      ?_ 3 (by omega)
    intro j hj
    rw [getD_setD_ne _ _ _ (by omega), getD_setD_ne _ _ _ (by omega)]
  · intro h
    have h0 := congrFun h ⟨0, by omega⟩
    norm_num at h0

end A2C

namespace Image

theorem except_bind_ok {ε α β : Type} (a : α) (f : α → Except ε β) :
    (Except.ok a : Except ε α) >>= f = f a := rfl

theorem except_bind_error {ε α β : Type} (e : ε) (f : α → Except ε β) :
    (Except.error e : Except ε α) >>= f = Except.error e := rfl

/-- Case-by-case unfolding of `load`: the three failure points in order
(`path_to_str`, `CString::new`, `at_load_image`), each error forwarded
unchanged by the `?` operator / `unsafe_torch_err!`. -/
theorem load_eq (N : Native) (p : Path) :
    load N p =
      match N.pathToStr p with
      | .error e => .error e
      | .ok s =>
        match N.cstringNew s with
        | .error e => .error e
        | .ok c =>
          match N.at_load_image c with
          | .error e => .error e
          | .ok ct => .ok (hwc_to_chw N { c_tensor := ct }) := by
  simp only [load, load_hwc]
  cases N.pathToStr p with
  | error e => rfl
  | ok s =>
      simp only [except_bind_ok]
      cases N.cstringNew s with
      | error e => rfl
      | ok c =>
          simp only [except_bind_ok]
          cases N.at_load_image c with
          | error e => rfl
          | ok ct => rfl

/-- Case-by-case unfolding of `save`: failures come from `path_to_str`,
`CString::new`, or `at_save_image` applied to the `[1,2,0]`-permuted input;
the native call's integer result is discarded. -/
theorem save_eq (N : Native) (t : Tensor) (p : Path) :
    save N t p =
      match N.pathToStr p with
      | .error e => .error e
      | .ok s =>
        match N.cstringNew s with
        | .error e => .error e
        | .ok c =>
          match N.at_save_image (N.permuteC t.c_tensor [1, 2, 0]) c with
          | .error e => .error e
          | .ok _ => .ok () := by
  simp only [save, save_hwc, chw_to_hwc, Tensor.permute]
  cases N.pathToStr p with
  | error e => rfl
  | ok s =>
      simp only [except_bind_ok]
      cases N.cstringNew s with
      | error e => rfl
      | ok c =>
          simp only [except_bind_ok]
          cases N.at_save_image (N.permuteC t.c_tensor [1, 2, 0]) c with
          | error e => rfl
          | ok r => rfl

/-- C3: for every path, `load` returns `Err` exactly when path conversion
(`path_to_str` or `CString::new`) fails or the native `at_load_image` call
reports an error; otherwise it returns `Ok` with the tensor built from the
native result, forwarding the translated error unchanged and adding no
failure condition of its own. -/
theorem claim_C3_load_errors (N : Native) (p : Path) :
    (load N p =
      match N.pathToStr p with
      | .error e => .error e
      | .ok s =>
        match N.cstringNew s with
        | .error e => .error e
        | .ok c =>
          match N.at_load_image c with
          | .error e => .error e
          | .ok ct => .ok (hwc_to_chw N { c_tensor := ct })) ∧
    ((load N p).isOk ↔ ∃ s c ct, N.pathToStr p = .ok s ∧
      N.cstringNew s = .ok c ∧ N.at_load_image c = .ok ct) := by
  refine ⟨load_eq N p, ?_⟩
  rw [load_eq N p]
  cases hp : N.pathToStr p with
  | error e => simp [Except.isOk, Except.toBool, hp]
  | ok s =>
      cases hc : N.cstringNew s with
      | error e => simp [Except.isOk, Except.toBool, hp, hc]
      | ok c =>
          cases hl : N.at_load_image c with
          | error e => simp [Except.isOk, Except.toBool, hp, hc, hl]
          | ok ct => simp [Except.isOk, Except.toBool, hp, hc, hl]

/-- C4: `save` can fail only through path conversion or the native
`at_save_image` error code; `resize` has no error path at all (it is a total
function into `Tensor`); and no branch of this layer inspects the tensor's
dimension sizes before the native calls (both results are invariant under
the `dims` observation of native tensors). -/
theorem claim_C4_no_shape_validation (N : Native) (t : Tensor) (p : Path)
    (out_w out_h : Int) :
    (save N t p =
      match N.pathToStr p with
      | .error e => .error e
      | .ok s =>
        match N.cstringNew s with
        | .error e => .error e
        | .ok c =>
          match N.at_save_image (N.permuteC t.c_tensor [1, 2, 0]) c with
          | .error e => .error e
          | .ok _ => .ok ()) ∧
    (resize N t out_w out_h =
      { c_tensor := N.permuteC
          (N.at_resize_image (N.permuteC t.c_tensor [1, 2, 0]) out_w out_h)
          [2, 0, 1] }) ∧
    (∀ d' : CTensor → List Int,
      save { N with dims := d' } t p = save N t p ∧
      resize { N with dims := d' } t out_w out_h = resize N t out_w out_h) := by
  exact ⟨save_eq N t p, rfl, fun d' => ⟨rfl, rfl⟩⟩

/-- C6: the public image operations apply no pixel computation of this
repository's own: `load`, `save` and `resize` each equal the corresponding
native call composed only with the dimension permutations `[2, 0, 1]`
(`hwc_to_chw`) and `[1, 2, 0]` (`chw_to_hwc`); all decoding, encoding and
resampling is the native library's. -/
theorem claim_C6_native_composition (N : Native) (t : Tensor) (p : Path)
    (out_w out_h : Int) :
    load N p = loadSpec N p ∧
    save N t p = saveSpec N t p ∧
    resize N t out_w out_h = resizeSpec N t out_w out_h := by
  refine ⟨?_, rfl, rfl⟩
  simp only [load, load_hwc, loadSpec]
  cases N.pathToStr p with
  | error e => rfl
  | ok s =>
      simp only [except_bind_ok]
      cases N.cstringNew s with
      | error e => rfl
      | ok c =>
          simp only [except_bind_ok]
          cases N.at_load_image c with
          | error e => rfl
          | ok ct => rfl

/-- C7: `hwc_to_chw` (`permute [2,0,1]`) and `chw_to_hwc` (`permute
[1,2,0]`) are mutually inverse on every 3-dimensional tensor: composing
them in either order restores the dimension layout and the contents. -/
theorem claim_C7_permute_inverse {α : Type} (t : T3 α) :
    permute120 (permute201 t) = t ∧ permute201 (permute120 t) = t :=
  ⟨rfl, rfl⟩

end Image

namespace A2C

theorem innerLoop_sizes (sample : Nat → List Int) (criticOf : Nat → TVal) :
    ∀ (k : Nat) (st : LoopState),
      (innerLoop sample criticOf st k).s_states.size = st.s_states.size ∧
      (innerLoop sample criticOf st k).s_rewards.size = st.s_rewards.size ∧
      (innerLoop sample criticOf st k).s_masks.size = st.s_masks.size := by
  intro k
  induction k with
  | zero => intro st; exact ⟨rfl, rfl, rfl⟩
  | succ k ih =>
      intro st
      have h := ih st
      simp only [innerLoop, stepIter, Array.size_setD]
      exact h

/-- Rows `1 … k` of `s_states` all hold the stub observation after `k`
iterations (row `s + 1` is written at iteration `s`). -/
theorem innerLoop_states (sample : Nat → List Int) (criticOf : Nat → TVal)
    (z : TVal) :
    ∀ (k : Nat) (st : LoopState) (j : Nat), 1 ≤ j → j ≤ k →
      j < st.s_states.size →
      (innerLoop sample criticOf st k).s_states.getD j z = TVal.scalar 42 := by
  intro k
  induction k with
  | zero => intro st j h1 h2 _; omega
  | succ k ih =>
      intro st j h1 h2 hsize
      simp only [innerLoop, stepIter]
      by_cases hj : j = k + 1
      · subst hj
        exact getD_setD_self _ _ _ _
          (by rw [(innerLoop_sizes sample criticOf k st).1]; exact hsize)
      · rw [getD_setD_ne _ _ _ (by omega)]
        exact ih st j h1 (by omega) hsize

/-- Rows `0 … k-1` of `s_rewards` all hold the stub reward `[0.0]` after
`k` iterations. -/
theorem innerLoop_rewards (sample : Nat → List Int) (criticOf : Nat → TVal)
    (z : TVal) :
    ∀ (k : Nat) (st : LoopState) (j : Nat), j < k →
      j < st.s_rewards.size →
      (innerLoop sample criticOf st k).s_rewards.getD j z =
        TVal.fvec [0] := by
  intro k
  induction k with
  | zero => intro st j h _; omega
  | succ k ih =>
      intro st j h hsize
      simp only [innerLoop, stepIter]
      by_cases hj : j = k
      · subst hj
        exact getD_setD_self _ _ _ _
          (by rw [(innerLoop_sizes sample criticOf j st).2.1]; exact hsize)
      · rw [getD_setD_ne _ _ _ (fun hh => hj hh.symm)]
        exact ih st j (by omega) hsize

/-- Rows `0 … k-1` of `s_masks` all hold `1 - 42` (the mask computed from
the stub done flag `42.0`) after `k` iterations. -/
theorem innerLoop_masks (sample : Nat → List Int) (criticOf : Nat → TVal)
    (z : TVal) :
    ∀ (k : Nat) (st : LoopState) (j : Nat), j < k →
      j < st.s_masks.size →
      (innerLoop sample criticOf st k).s_masks.getD j z =
        TVal.sub (TVal.scalar 1) (TVal.scalar 42) := by
  intro k
  induction k with
  | zero => intro st j h _; omega
  | succ k ih =>
      intro st j h hsize
      simp only [innerLoop, stepIter]
      by_cases hj : j = k
      · subst hj
        exact getD_setD_self _ _ _ _
          (by rw [(innerLoop_sizes sample criticOf j st).2.2]; exact hsize)
      · rw [getD_setD_ne _ _ _ (fun hh => hj hh.symm)]
        exact ih st j (by omega) hsize

/-- The arguments passed to `env.step` over `k` iterations: exactly element
`0` of each sampled action vector, in step order. -/
theorem innerLoop_envCalls (sample : Nat → List Int) (criticOf : Nat → TVal) :
    ∀ (k : Nat) (st : LoopState),
      (innerLoop sample criticOf st k).envCalls =
        st.envCalls ++ (List.range k).map (fun s => (sample s).getD 0 0) := by
  intro k
  induction k with
  | zero => intro st; simp [innerLoop]
  | succ k ih =>
      intro st
      simp only [innerLoop, stepIter, ih st, List.range_succ, List.map_append,
        List.map_cons, List.map_nil, List.append_assoc]

/-- C2: in every iteration of the inner step loop of `run`, the
observation/reward/done handling is stub code: the observation written into
`s_states.get(s+1)` is the constant scalar `42.0`, the stored reward
`s_rewards.get(s)` is the constant `0.0`, the done flag used to compute the
masks is the constant `42.0` (so every stored mask is `1.0 - 42.0`), and
only element `0` of each sampled action vector is passed to `env.step`. -/
theorem claim_C2_stub_step (sample : Nat → List Int) (criticOf : Nat → TVal)
    (z : TVal) (st : LoopState) (nsteps s : Nat) (hs : s < nsteps)
    (h1 : s + 1 < st.s_states.size) (h2 : s < st.s_rewards.size)
    (h3 : s < st.s_masks.size) :
    (innerLoop sample criticOf st nsteps).s_states.getD (s + 1) z =
      TVal.scalar 42 ∧
    (innerLoop sample criticOf st nsteps).s_rewards.getD s z =
      TVal.fvec [0] ∧
    (innerLoop sample criticOf st nsteps).s_masks.getD s z =
      TVal.scalar (1 - 42) ∧
    (innerLoop sample criticOf st nsteps).envCalls =
      st.envCalls ++ (List.range nsteps).map (fun i => (sample i).getD 0 0) := by
  refine ⟨innerLoop_states sample criticOf z nsteps st (s + 1) (by omega)
      (by omega) h1,
    innerLoop_rewards sample criticOf z nsteps st s hs h2, ?_,
    innerLoop_envCalls sample criticOf nsteps st⟩
  rw [innerLoop_masks sample criticOf z nsteps st s hs h3]
  rfl

theorem claim_C2_stub_step_witness :
    2 < 5 ∧ 2 + 1 < c2WitnessState.s_states.size ∧
    2 < c2WitnessState.s_rewards.size ∧ 2 < c2WitnessState.s_masks.size ∧
    (innerLoop (fun i => [Int.ofNat i + 3, 100]) (fun i => TVal.sym i)
      c2WitnessState 5).s_states.getD 3 (TVal.sym 0) = TVal.scalar 42 ∧
    (innerLoop (fun i => [Int.ofNat i + 3, 100]) (fun i => TVal.sym i)
      c2WitnessState 5).s_masks.getD 2 (TVal.sym 0) = TVal.scalar (-41) ∧
    (innerLoop (fun i => [Int.ofNat i + 3, 100]) (fun i => TVal.sym i)
      c2WitnessState 5).envCalls = [3, 4, 5, 6, 7] := by
  have h := claim_C2_stub_step (fun i => [Int.ofNat i + 3, 100])
    (fun i => TVal.sym i) (TVal.sym 0) c2WitnessState 5 2 (by decide)
    (by decide) (by decide) (by decide)
  refine ⟨by decide, by decide, by decide, by decide, h.1, ?_, ?_⟩
  · rw [h.2.2.1]
    norm_num
  · rw [h.2.2.2]
    decide

end A2C

namespace Own

theorem countE_append (a b : List Event) (e : Event) :
    countE (a ++ b) e = countE a e + countE b e := by
  simp [countE, List.filter_append]

theorem countE_cons (x : Event) (tr : List Event) (e : Event) :
    countE (x :: tr) e = (if x = e then 1 else 0) + countE tr e := by
  by_cases h : x = e
  · simp [countE, List.filter_cons, h]
    omega
  · simp [countE, List.filter_cons, h]

theorem countN_cons (x : Nat) (l : List Nat) (p : Nat) :
    countN (x :: l) p = (if x = p then 1 else 0) + countN l p := by
  by_cases h : x = p
  · simp [countN, List.filter_cons, h]
    omega
  · simp [countN, List.filter_cons, h]

theorem countE_allocTrace_alloc :
    ∀ (k : Nat) (st : OwnState) (p : Nat),
      countE (allocTrace k st) (Event.alloc p) =
        if st.next ≤ p ∧ p < st.next + k then 1 else 0 := by
  intro k
  induction k with
  | zero =>
      intro st p
      simp only [allocTrace, countE, List.filter_nil, List.length_nil]
      rw [if_neg (by omega : ¬ (st.next ≤ p ∧ p < st.next + 0))]
  | succ k ih =>
      intro st p
      rw [allocTrace, countE_cons, ih (construct st) p]
      simp only [construct]
      by_cases h : st.next = p
      · rw [if_pos (by simpa using h), if_neg (by omega), if_pos (by omega)]
      · rw [if_neg (by simpa using h)]
        by_cases h2 : st.next + 1 ≤ p ∧ p < st.next + 1 + k
        · rw [if_pos h2, if_pos (by omega)]
        · rw [if_neg h2, if_neg (by omega)]

theorem countE_allocTrace_free :
    ∀ (k : Nat) (st : OwnState) (p : Nat),
      countE (allocTrace k st) (Event.free p) = 0 := by
  intro k
  induction k with
  | zero => intro st p; simp [allocTrace, countE]
  | succ k ih =>
      intro st p
      rw [allocTrace, countE_cons, ih (construct st) p]
      simp

theorem countE_destroyAll_free (st : OwnState) (p : Nat) :
    countE (destroyAll st) (Event.free p) = countN st.live p := by
  unfold destroyAll
  induction st.live with
  | nil => simp [countE, countN]
  | cons q l ih =>
      rw [List.map_cons, countE_cons, countN_cons, ih]
      by_cases h : q = p
      · rw [if_pos (by simpa using h), if_pos h]
      · rw [if_neg (by simpa using h), if_neg h]

theorem countE_destroyAll_alloc (st : OwnState) (p : Nat) :
    countE (destroyAll st) (Event.alloc p) = 0 := by
  unfold destroyAll
  induction st.live with
  | nil => simp [countE]
  | cons q l ih =>
      rw [List.map_cons, countE_cons, ih]
      simp

theorem mem_live_constructN :
    ∀ (k : Nat) (st : OwnState) (p : Nat),
      p ∈ (constructN k st).live ↔
        (st.next ≤ p ∧ p < st.next + k) ∨ p ∈ st.live := by
  intro k
  induction k with
  | zero =>
      intro st p
      simp [constructN]
  | succ k ih =>
      intro st p
      rw [constructN, ih (construct st) p]
      simp only [construct, List.mem_cons]
      constructor
      · rintro (h | (h | h))
        · exact Or.inl (by omega)
        · exact Or.inl (by omega)
        · exact Or.inr h
      · rintro (h | h)
        · by_cases hq : p = st.next
          · exact Or.inr (Or.inl hq)
          · exact Or.inl (by omega)
        · exact Or.inr (Or.inr h)

theorem nodup_live_constructN :
    ∀ (k : Nat) (st : OwnState), (∀ p ∈ st.live, p < st.next) →
      st.live.Nodup →
      (constructN k st).live.Nodup ∧
      (∀ p ∈ (constructN k st).live, p < (constructN k st).next) := by
  intro k
  induction k with
  | zero => intro st h1 h2; exact ⟨h2, h1⟩
  | succ k ih =>
      intro st h1 h2
      rw [constructN]
      refine ih (construct st) ?_ ?_
      · intro p hp
        rcases List.mem_cons.mp hp with h | h
        · simp [construct, h]
        · have := h1 p h
          simp only [construct]
          omega
      · refine List.nodup_cons.mpr ⟨fun hmem => ?_, h2⟩
        have := h1 st.next hmem
        omega

theorem countN_eq_zero (p : Nat) :
    ∀ (l : List Nat), p ∉ l → countN l p = 0 := by
  intro l
  induction l with
  | nil => intro _; simp [countN]
  | cons q l ih =>
      intro h
      rw [countN_cons, ih (fun hm => h (List.mem_cons.mpr (Or.inr hm))),
        if_neg (fun hq => h (List.mem_cons.mpr (Or.inl hq.symm)))]

theorem countN_nodup (p : Nat) :
    ∀ (l : List Nat), l.Nodup → countN l p = if p ∈ l then 1 else 0 := by
  intro l
  induction l with
  | nil => intro _; simp [countN]
  | cons q l ih =>
      intro hnd
      have hq : q ∉ l := (List.nodup_cons.mp hnd).1
      rw [countN_cons, ih (List.nodup_cons.mp hnd).2]
      by_cases h : q = p
      · subst h
        rw [if_pos rfl, if_neg hq, if_pos (List.mem_cons.mpr (Or.inl rfl))]
      · rw [if_neg h]
        by_cases hm : p ∈ l
        · rw [if_pos hm, if_pos (List.mem_cons.mpr (Or.inr hm))]
        · rw [if_neg hm,
            if_neg (fun hc => (List.mem_cons.mp hc).elim
              (fun he => h he.symm) hm)]

/-- C1: every `Tensor` value owns its wrapped native pointer exclusively —
after any number of constructions the live owner list has no duplicate
pointer, a pointer is owned exactly when it was allocated — and the native
resource behind each allocation is released exactly once, when its owner is
destroyed (in the full trace, `free` events match `alloc` events one to
one, and there is at most one of each per pointer). -/
theorem claim_C1_exclusive_ownership (k p : Nat) :
    (constructN k OwnState.init).live.Nodup ∧
    (p ∈ (constructN k OwnState.init).live ↔ p < k) ∧
    countE (fullTrace k) (Event.free p) =
      countE (fullTrace k) (Event.alloc p) ∧
    countE (fullTrace k) (Event.alloc p) ≤ 1 := by
  have hnodup : (constructN k OwnState.init).live.Nodup :=
    (nodup_live_constructN k OwnState.init (by simp [OwnState.init])
      List.nodup_nil).1
  have hmem : p ∈ (constructN k OwnState.init).live ↔ p < k := by
    rw [mem_live_constructN k OwnState.init p]
    simp [OwnState.init]
  have halloc : countE (fullTrace k) (Event.alloc p) =
      if p < k then 1 else 0 := by
    rw [fullTrace, countE_append, countE_destroyAll_alloc,
      countE_allocTrace_alloc k OwnState.init p]
    simp only [OwnState.init]
    by_cases h : p < k
    · rw [if_pos (by omega), if_pos h]
    · rw [if_neg (by omega), if_neg h]
  have hfree : countE (fullTrace k) (Event.free p) =
      if p < k then 1 else 0 := by
    rw [fullTrace, countE_append, countE_allocTrace_free,
      countE_destroyAll_free, countN_nodup p _ hnodup]
    rw [if_congr hmem rfl rfl]
    omega
  refine ⟨hnodup, hmem, ?_, ?_⟩
  · rw [halloc, hfree]
  · rw [halloc]
    split <;> omega

end Own
